import Mathlib

/-!
Verification of the ECU (Emergent Corpus Understanding) core: a shallow
embedding in Lean of the reasoning-loop routing and memory-pruning logic of
`src/agent/workflow.py` and of the retrieval operations of
`src/tools/retrieval_tools.py`, together with proofs of the testable
properties stated in the specification.

Numeric scores (confidence, similarity, co-occurrence strength) are embedded
as rationals; the comparisons performed by the source (`>= 8.0`, `< 5.0`,
`>= min_similarity`, ...) are exact, so this is faithful.  String-valued
decisions and routing labels are kept as strings, exactly as the source
compares and returns them.
-/

namespace ECU

/-! ## Reasoning-loop routing (`ECUAgent.should_continue`)

The source reads `_decision`, `iterations` and `confidence_score` from the
session state and returns one of the strings `"stop"`, `"synthesize"`,
`"continue"`:

  if iterations >= config.MAX_ITERATIONS: return "stop"
  if decision == 'SYNTHESIZE' or confidence >= 8.0: return "synthesize"
  elif decision == 'STOP' or (confidence < 5.0 and iterations >= 5): return "stop"
  else: return "continue"
-/

def should_continue (decision : String) (iterations : Nat) (confidence : ℚ)
    (maxIterations : Nat) : String :=
  if maxIterations ≤ iterations then "stop"
  else if decision = "SYNTHESIZE" ∨ (8 : ℚ) ≤ confidence then "synthesize"
  else if decision = "STOP" ∨ (confidence < 5 ∧ 5 ≤ iterations) then "stop"
  else "continue"

lemma should_continue_eq_continue_imp_lt {d : String} {i : Nat} {c : ℚ} {m : Nat}
    (h : should_continue d i c m = "continue") : i < m := by
  by_contra hge
  have hmi : m ≤ i := by omega
  simp [should_continue, hmi] at h

/-! ## The reasoning loop itself (`ECUAgent._build_workflow` + `meta_reasoning`)

One pass of the loop is gather → detect_patterns → test_hypotheses →
meta_reasoning, after which `should_continue` routes to `"continue"` (back to
gather), `"synthesize"` or `"stop"`.  Only `meta_reasoning` touches the
iteration counter: it increments `state['iterations']` before reading the
Oracle's decision and confidence.  The routing inputs are exactly the
decision, the incremented iteration count and the confidence, so for counting
meta-reasoning invocations the loop below is a faithful projection of the
LangGraph workflow.  The Oracle is an arbitrary function from the invocation
number to a (decision, confidence) response, which covers adversarial
always-`"CONTINUE"` response sequences. -/

structure MetaResponse where
  decision : String
  confidence : ℚ

/-- Number of `meta_reasoning` invocations a session performs from iteration
counter `iterations` on, under Oracle responses `oracle`.  Each invocation
increments the counter and then routes via `should_continue`; the recursion
happens exactly when the route is `"continue"`.  Totality of this definition
is the termination of the reasoning loop. -/
def loopMetaCount (oracle : Nat → MetaResponse) (maxIterations : Nat)
    (iterations : Nat) : Nat :=
  let r := oracle (iterations + 1)
  if h : should_continue r.decision (iterations + 1) r.confidence maxIterations
      = "continue" then
    1 + loopMetaCount oracle maxIterations (iterations + 1)
  else 1
termination_by maxIterations - iterations
decreasing_by
  have hlt := should_continue_eq_continue_imp_lt h
  omega

lemma loopMetaCount_le (oracle : Nat → MetaResponse) (m i : Nat) :
    loopMetaCount oracle m i ≤ (m - i) + 1 := by
  rw [loopMetaCount]
  split
  · next h =>
    have hlt := should_continue_eq_continue_imp_lt h
    have ih := loopMetaCount_le oracle m (i + 1)
    omega
  · omega
termination_by m - i
decreasing_by omega

/-- C1: for every sequence of Oracle responses (in particular an Oracle that
always answers `"CONTINUE"`), a session starting at iteration counter 0
performs at most `maxIterations + 1` meta-reasoning invocations; the loop
terminates because `should_continue` answers `"stop"` as soon as the
incremented iteration counter reaches `maxIterations`. -/
theorem reasoning_loop_terminates_within_max_iterations
    (oracle : Nat → MetaResponse) (maxIterations : Nat) :
    loopMetaCount oracle maxIterations 0 ≤ maxIterations + 1 := by
  have h := loopMetaCount_le oracle maxIterations 0
  omega

/-- C2: `should_continue`, as a pure function of (decision, iteration count,
confidence), routes to `"stop"` at or above the iteration ceiling; otherwise
to `"synthesize"` on decision `"SYNTHESIZE"` or confidence ≥ 8; otherwise to
`"stop"` on decision `"STOP"` or (confidence < 5 and ≥ 5 iterations);
otherwise to `"continue"`.  In particular, below the ceiling, confidence 8.5
with decision `"CONTINUE"` routes to `"synthesize"`. -/
theorem should_continue_routing (d : String) (i : Nat) (c : ℚ) (m : Nat) :
    (m ≤ i → should_continue d i c m = "stop") ∧
    (i < m → (d = "SYNTHESIZE" ∨ (8 : ℚ) ≤ c) →
      should_continue d i c m = "synthesize") ∧
    (i < m → ¬(d = "SYNTHESIZE" ∨ (8 : ℚ) ≤ c) →
      (d = "STOP" ∨ (c < 5 ∧ 5 ≤ i)) → should_continue d i c m = "stop") ∧
    (i < m → ¬(d = "SYNTHESIZE" ∨ (8 : ℚ) ≤ c) →
      ¬(d = "STOP" ∨ (c < 5 ∧ 5 ≤ i)) → should_continue d i c m = "continue") ∧
    (i < m → should_continue "CONTINUE" i (17 / 2) m = "synthesize") := by
  have hnot : ∀ h : i < m, ¬ m ≤ i := by omega
  refine ⟨?_, ?_, ?_, ?_, ?_⟩
  · intro hmi
    simp [should_continue, hmi]
  · intro hlt hsyn
    simp [should_continue, hnot hlt, hsyn]
  · intro hlt hns hstop
    simp [should_continue, hnot hlt, hns, hstop]
  · intro hlt hns hnstop
    simp [should_continue, hnot hlt, hns, hnstop]
  · intro hlt
    have h8 : (8 : ℚ) ≤ 17 / 2 := by norm_num
    simp [should_continue, hnot hlt, h8]

theorem should_continue_routing_witness :
    (3 < 15 → should_continue "CONTINUE" 3 (17 / 2) 15 = "synthesize") ∧
    should_continue "CONTINUE" 3 (17 / 2) 15 = "synthesize" := by
  refine ⟨(should_continue_routing "CONTINUE" 3 (17 / 2) 15).2.2.2.2, ?_⟩
  exact (should_continue_routing "CONTINUE" 3 (17 / 2) 15).2.2.2.2 (by omega)

/-! ## Observation-memory pruning (`ECUAgent.gather_observations`)

After extending `state['observations']` with the newly gathered observations,
the source prunes:

  if len(state['observations']) > MAX_OBS:
      state['observations'] = state['observations'][-MAX_OBS:]

`pySliceLast` models the Python slice `l[-n:]` exactly, including the `-0`
quirk (for `n = 0` the slice is `l[0:]`, the whole list). -/

def pySliceLast {α : Type} (l : List α) (n : Nat) : List α :=
  if n = 0 then l else l.drop (l.length - n)

/-- One `gather` step's effect on the observation list: append the new
observations, then prune to the last `cap` when over the cap. -/
def gather_step {α : Type} (observations new_observations : List α) (cap : Nat) :
    List α :=
  let extended := observations ++ new_observations
  if cap < extended.length then pySliceLast extended cap else extended

/-- C3: after the pruning at the end of a `gather` step (for a positive
configured cap, as `MAX_OBSERVATIONS_IN_MEMORY` is), the observation list has
length at most the cap, and it is a suffix of the appended list of length
`min cap total`: exactly the most recently appended observations in their
original relative order.  This holds for an arbitrary prior observation list,
hence after every step of every sequence of gather steps. -/
theorem gather_step_bounded_and_recent {α : Type}
    (observations new_observations : List α) (cap : Nat) (hcap : 0 < cap) :
    (gather_step observations new_observations cap).length ≤ cap ∧
    (∃ dropped, dropped ++ gather_step observations new_observations cap
        = observations ++ new_observations) ∧
    (gather_step observations new_observations cap).length
      = min cap (observations ++ new_observations).length := by
  set l := observations ++ new_observations with hl
  by_cases hover : cap < l.length
  · have hcap0 : cap ≠ 0 := by omega
    have hstep : gather_step observations new_observations cap
        = l.drop (l.length - cap) := by
      simp [gather_step, ← hl, hover, pySliceLast, hcap0]
    have hlen : (l.drop (l.length - cap)).length = cap := by
      rw [List.length_drop]
      omega
    refine ⟨?_, ?_, ?_⟩
    · rw [hstep, hlen]
    · exact ⟨l.take (l.length - cap), by rw [hstep, List.take_append_drop]⟩
    · rw [hstep, hlen]
      omega
  · have hstep : gather_step observations new_observations cap = l := by
      simp [gather_step, ← hl, hover]
    refine ⟨?_, ⟨[], by rw [hstep, List.nil_append]⟩, ?_⟩
    · rw [hstep]; omega
    · rw [hstep]
      omega

/-- Scenario witness: appending 100 observations to an empty list with cap 50
leaves the 50 observations with input indices 50–99, in order. -/
theorem gather_step_bounded_and_recent_witness :
    (0 < 50) ∧
    ((gather_step ([] : List Nat) (List.range 100) 50).length ≤ 50 ∧
      (∃ dropped, dropped ++ gather_step ([] : List Nat) (List.range 100) 50
          = [] ++ List.range 100) ∧
      (gather_step ([] : List Nat) (List.range 100) 50).length
        = min 50 ([] ++ List.range 100).length) ∧
    gather_step ([] : List Nat) (List.range 100) 50 = List.range' 50 50 := by
  exact ⟨by decide,
    gather_step_bounded_and_recent [] (List.range 100) 50 (by decide),
    by decide⟩

/-! ## Hypothesis records (`src/agent/state.py`) and pruning
(`ECUAgent.detect_patterns`)

The source prunes with Python's stable sort:

  if len(state['hypotheses']) > MAX_HYPOTHESES:
      state['hypotheses'] = sorted(state['hypotheses'],
          key=lambda h: h.get('confidence', 0), reverse=True)[:MAX_HYPOTHESES]

`sorted(..., reverse=True)` orders by descending key and keeps
equal-key elements in their original relative order; `List.mergeSort` with
`hypLe` below is exactly such a stable descending sort. -/

structure Hypothesis where
  id : Nat
  claim : String
  confidence : ℚ
  evidence_ids : List Nat
  contradicting_ids : List Nat
  relevant_to_subquestion : Nat
  impact_on_answer : String
  tested_at_iteration : Nat
  num_tests : Nat
deriving DecidableEq

def hypLe (a b : Hypothesis) : Bool := decide (b.confidence ≤ a.confidence)

def detect_patterns_prune (hypotheses : List Hypothesis) (cap : Nat) :
    List Hypothesis :=
  if cap < hypotheses.length then (hypotheses.mergeSort hypLe).take cap
  else hypotheses

lemma hypLe_trans : ∀ a b c : Hypothesis,
    hypLe a b = true → hypLe b c = true → hypLe a c = true := by
  intro a b c hab hbc
  simp only [hypLe, decide_eq_true_eq] at *
  exact le_trans hbc hab

lemma hypLe_total : ∀ a b : Hypothesis, (hypLe a b || hypLe b a) = true := by
  intro a b
  simp only [hypLe, Bool.or_eq_true, decide_eq_true_eq]
  exact le_total b.confidence a.confidence

/-- Stability of the sort, per key class: for any boolean class predicate `p`
such that any two elements of the class compare `le` both ways, sorting does
not disturb the class's subsequence. -/
lemma mergeSort_filter_class {α : Type} (le : α → α → Bool)
    (htrans : ∀ a b c : α, le a b = true → le b c = true → le a c = true)
    (htotal : ∀ a b : α, (le a b || le b a) = true)
    (p : α → Bool) (hp : ∀ a b : α, p a = true → p b = true → le a b = true)
    (l : List α) : (l.mergeSort le).filter p = l.filter p := by
  have hsub : (l.filter p).Sublist l := List.filter_sublist l
  have hpair : (l.filter p).Pairwise (fun a b => le a b = true) := by
    rw [List.pairwise_iff_forall_sublist]
    intro a b hab
    have ha : a ∈ l.filter p := hab.subset (by simp)
    have hb : b ∈ l.filter p := hab.subset (by simp)
    exact hp a b (List.of_mem_filter ha) (List.of_mem_filter hb)
  have hstable : (l.filter p).Sublist (l.mergeSort le) :=
    List.sublist_mergeSort htrans htotal hpair hsub
  have hsub2 : ((l.filter p).filter p).Sublist ((l.mergeSort le).filter p) :=
    List.Sublist.filter p hstable
  rw [List.filter_filter] at hsub2
  have hsame : ((l.mergeSort le).filter p).length = (l.filter p).length := by
    have hperm : ((l.mergeSort le).filter p).Perm (l.filter p) :=
      (List.mergeSort_perm l le).filter p
    exact hperm.length_eq
  have : (List.filter (fun a => p a && p a) l).Sublist ((l.mergeSort le).filter p) := hsub2
  have heq : List.filter (fun a => p a && p a) l = l.filter p := by
    apply List.filter_congr
    intro x _
    cases hpx : p x <;> simp [hpx]
  rw [heq] at this
  exact (this.eq_of_length (by rw [hsame])).symm

/-- C7: pruning an over-cap hypothesis list keeps exactly the `cap`
highest-confidence hypotheses: the result has length `cap`, is sorted by
descending confidence, together with the dropped hypotheses it is a
permutation of the original list, every dropped hypothesis has confidence at
most that of every kept one, and for each confidence value the kept
hypotheses of that confidence are precisely the first (earliest, in original
relative order) such entries of the original list. -/
theorem detect_patterns_prune_spec (l : List Hypothesis) (cap : Nat)
    (hover : cap < l.length) :
    (detect_patterns_prune l cap).length = cap ∧
    (detect_patterns_prune l cap).Pairwise
      (fun a b => b.confidence ≤ a.confidence) ∧
    (∃ dropped, ((detect_patterns_prune l cap) ++ dropped).Perm l ∧
      ∀ x ∈ detect_patterns_prune l cap, ∀ y ∈ dropped,
        y.confidence ≤ x.confidence) ∧
    (∀ c : ℚ, ∃ t,
      (detect_patterns_prune l cap).filter (fun h => decide (h.confidence = c))
        ++ t = l.filter (fun h => decide (h.confidence = c))) := by
  have hprune : detect_patterns_prune l cap = (l.mergeSort hypLe).take cap := by
    simp [detect_patterns_prune, hover]
  have hsorted : (l.mergeSort hypLe).Pairwise (fun a b => hypLe a b = true) :=
    List.sorted_mergeSort hypLe_trans hypLe_total l
  have hperm : (l.mergeSort hypLe).Perm l := List.mergeSort_perm l hypLe
  have hlenms : (l.mergeSort hypLe).length = l.length := hperm.length_eq
  refine ⟨?_, ?_, ?_, ?_⟩
  · rw [hprune, List.length_take, hlenms]
    omega
  · rw [hprune]
    have hsub : ((l.mergeSort hypLe).take cap).Sublist (l.mergeSort hypLe) :=
      List.take_sublist cap (l.mergeSort hypLe)
    have := hsorted.sublist hsub
    exact this.imp (by intro a b hab; simpa [hypLe] using hab)
  · refine ⟨(l.mergeSort hypLe).drop cap, ?_, ?_⟩
    · rw [hprune, List.take_append_drop]
      exact hperm
    · intro x hx y hy
      rw [hprune] at hx
      have hcross : ∀ x ∈ (l.mergeSort hypLe).take cap,
          ∀ y ∈ (l.mergeSort hypLe).drop cap, hypLe x y = true := by
        have hps := hsorted
        rw [← List.take_append_drop cap (l.mergeSort hypLe),
          List.pairwise_append] at hps
        exact hps.2.2
      have := hcross x hx y hy
      simpa [hypLe] using this
  · intro c
    refine ⟨((l.mergeSort hypLe).drop cap).filter
      (fun h => decide (h.confidence = c)), ?_⟩
    rw [hprune, ← List.filter_append, List.take_append_drop]
    exact mergeSort_filter_class hypLe hypLe_trans hypLe_total
      (fun h => decide (h.confidence = c))
      (by intro a b ha hb
          simp only [decide_eq_true_eq] at ha hb
          simp [hypLe, ha, hb]) l

/-- Concrete list of 60 hypotheses (seven distinct confidence values, many
ties) pruned with cap 50, witnessing `detect_patterns_prune_spec`. -/
theorem detect_patterns_prune_spec_witness :
    (50 < ((List.range 60).map (fun i =>
      Hypothesis.mk i "" ((i % 7 : Nat) : ℚ) [] [] 0 "" 0 0)).length) ∧
    ((detect_patterns_prune ((List.range 60).map (fun i =>
      Hypothesis.mk i "" ((i % 7 : Nat) : ℚ) [] [] 0 "" 0 0)) 50).length = 50 ∧
    (detect_patterns_prune ((List.range 60).map (fun i =>
      Hypothesis.mk i "" ((i % 7 : Nat) : ℚ) [] [] 0 "" 0 0)) 50).Pairwise
      (fun a b => b.confidence ≤ a.confidence) ∧
    (∃ dropped, ((detect_patterns_prune ((List.range 60).map (fun i =>
      Hypothesis.mk i "" ((i % 7 : Nat) : ℚ) [] [] 0 "" 0 0)) 50)
        ++ dropped).Perm ((List.range 60).map (fun i =>
      Hypothesis.mk i "" ((i % 7 : Nat) : ℚ) [] [] 0 "" 0 0)) ∧
      ∀ x ∈ detect_patterns_prune ((List.range 60).map (fun i =>
        Hypothesis.mk i "" ((i % 7 : Nat) : ℚ) [] [] 0 "" 0 0)) 50,
        ∀ y ∈ dropped, y.confidence ≤ x.confidence) ∧
    (∀ c : ℚ, ∃ t,
      (detect_patterns_prune ((List.range 60).map (fun i =>
        Hypothesis.mk i "" ((i % 7 : Nat) : ℚ) [] [] 0 "" 0 0)) 50).filter
          (fun h => decide (h.confidence = c))
        ++ t = ((List.range 60).map (fun i =>
        Hypothesis.mk i "" ((i % 7 : Nat) : ℚ) [] [] 0 "" 0 0)).filter
          (fun h => decide (h.confidence = c)))) := by
  refine ⟨by simp, detect_patterns_prune_spec _ 50 (by simp)⟩

/-- Python `try: return body  except Exception: return []`. -/
def tryOrEmpty {α : Type} (body : Except String (List α)) : List α :=
  match body with
  | Except.ok r => r
  | Except.error _ => []

lemma exceptOk_bind {ε α β : Type} (a : α) (f : α → Except ε β) :
    (Except.ok a >>= f) = f a := rfl

lemma exceptError_bind {ε α β : Type} (e : ε) (f : α → Except ε β) :
    ((Except.error e : Except ε α) >>= f) = Except.error e := rfl

/-! ## Co-occurrence graph traversal (`RetrievalTools.traverse_graph`)

The store is projected to what the traversal reads: the set of observation
ids present (the `session.query(Observation).filter(id == obs_id).first()`
lookup) and the co-occurrence edges with their strengths.  The source is a
level-synchronous BFS over a Python set frontier:

  visited = set(); current_level = {start}; all_observations = []
  for hop in range(max_hops):
      next_level = set()
      for obs_id in current_level:
          if obs_id in visited: continue
          visited.add(obs_id)
          if store has obs_id: append the marshalled result dict with hop
          for each edge touching obs_id with strength >= min_strength:
              other = the other endpoint
              if other not in visited: next_level.add(other)
      current_level = next_level
      if not current_level: break

Marshalling a found node builds a dict whose 'metadata' entry evaluates
`dict(obs.metadata)`.  In `schema.py` the JSON column is `meta_data`
("renamed from metadata" — SQLAlchemy's declarative API reserves the name),
so `obs.metadata` resolves to the declarative Base's `MetaData` registry, an
always-truthy non-mapping object, and `dict(obs.metadata)` raises
`TypeError` on every node found; the operation's `except` absorbs it.
The section therefore has two models:

- `traverse_graph` (the source): marshalling a found node raises, so the
  whole traversal is an `Except` computation absorbed by `tryOrEmpty`;
- `processLevelIntended`/`traverse_graph_intended`: the same traversal logic
  with the one-token marshalling slip fixed (reading the actual `meta_data`
  column), which is what the docstring ("Returns: List of observations
  reachable within max_hops") and the spec describe.

Python set iteration order is unspecified; both embeddings fix a list order
for each frontier.  The properties proved below (no node twice, hop bounds,
hop = BFS level, emptiness) are independent of that order. -/

structure CoEdge where
  obs_a_id : Nat
  obs_b_id : Nat
  strength : ℚ
deriving DecidableEq

structure GraphStore where
  obs_ids : List Nat
  edges : List CoEdge
deriving DecidableEq

/-- Neighbor ids of `obsId` along edges of strength at least `minStrength`
(the `or_(obs_a_id == obs_id, obs_b_id == obs_id)` query followed by
`other_id = b if a == obs_id else a`). -/
def neighborIds (edges : List CoEdge) (minStrength : ℚ) (obsId : Nat) :
    List Nat :=
  (edges.filter (fun e =>
      decide ((e.obs_a_id = obsId ∨ e.obs_b_id = obsId)
        ∧ minStrength ≤ e.strength))).map
    (fun e => if e.obs_a_id = obsId then e.obs_b_id else e.obs_a_id)

/-- The inner `for obs_id in current_level` loop with the marshalling slip
fixed (intended semantics): returns the grown visited set, the next
frontier, and the (id, hop) results found at this level. -/
def processLevelIntended (g : GraphStore) (minStrength : ℚ) (hop : Nat) :
    List Nat → List Nat → List Nat × List Nat × List (Nat × Nat)
  | visited, [] => (visited, [], [])
  | visited, obsId :: rest =>
    if obsId ∈ visited then processLevelIntended g minStrength hop visited rest
    else
      let found := if obsId ∈ g.obs_ids then [(obsId, hop)] else []
      let nbrs := (neighborIds g.edges minStrength obsId).filter
        (fun b => decide (b ∉ obsId :: visited))
      let p := processLevelIntended g minStrength hop (obsId :: visited) rest
      (p.1, nbrs ++ p.2.1, found ++ p.2.2)

/-- The `for hop in range(max_hops)` loop, with the early break on an empty
frontier. -/
def traverseLoopIntended (g : GraphStore) (minStrength : ℚ) :
    Nat → List Nat → List Nat → Nat → List (Nat × Nat)
  | 0, _, _, _ => []
  | fuel + 1, visited, current, hop =>
    let p := processLevelIntended g minStrength hop visited current
    p.2.2 ++ (if p.2.1 = [] then []
      else traverseLoopIntended g minStrength fuel p.1 p.2.1 (hop + 1))

/-- The traversal with the marshalling slip fixed: what the docstring and
the spec describe. -/
def traverse_graph_intended (g : GraphStore) (start_observation_id : Nat)
    (max_hops : Nat) (min_strength : ℚ) : List (Nat × Nat) :=
  traverseLoopIntended g min_strength max_hops [] [start_observation_id] 0

/-- The inner loop as the source actually executes: a node present in the
store is marshalled into a result dict, and the dict's
`dict(obs.metadata)` entry raises `TypeError` (metadata is the SQLAlchemy
registry; the column is `meta_data`) before any neighbor exploration. -/
def processLevelExc (g : GraphStore) (minStrength : ℚ) (hop : Nat) :
    List Nat → List Nat →
      Except String (List Nat × List Nat × List (Nat × Nat))
  | visited, [] => Except.ok (visited, [], [])
  | visited, obsId :: rest =>
    if obsId ∈ visited then processLevelExc g minStrength hop visited rest
    else if obsId ∈ g.obs_ids then Except.error "TypeError"
    else
      let nbrs := (neighborIds g.edges minStrength obsId).filter
        (fun b => decide (b ∉ obsId :: visited))
      processLevelExc g minStrength hop (obsId :: visited) rest >>= fun p =>
        Except.ok (p.1, nbrs ++ p.2.1, p.2.2)

def traverseLoopExc (g : GraphStore) (minStrength : ℚ) :
    Nat → List Nat → List Nat → Nat → Except String (List (Nat × Nat))
  | 0, _, _, _ => Except.ok []
  | fuel + 1, visited, current, hop =>
    processLevelExc g minStrength hop visited current >>= fun p =>
      if p.2.1 = [] then Except.ok p.2.2
      else
        traverseLoopExc g minStrength fuel p.1 p.2.1 (hop + 1) >>= fun tail =>
          Except.ok (p.2.2 ++ tail)

/-- `RetrievalTools.traverse_graph` as the source executes it: the traversal
body behind the `try/except`, with the raising result marshalling. -/
def traverse_graph (g : GraphStore) (start_observation_id : Nat)
    (max_hops : Nat) (min_strength : ℚ) : List (Nat × Nat) :=
  tryOrEmpty (traverseLoopExc g min_strength max_hops
    [] [start_observation_id] 0)

/-- A successful (non-raising) pass over one level found no node: every
found node would have raised while being marshalled. -/
lemma processLevelExc_ok_empty (g : GraphStore) (s : ℚ) (hop : Nat) :
    ∀ (c v : List Nat) (p : List Nat × List Nat × List (Nat × Nat)),
      processLevelExc g s hop v c = Except.ok p → p.2.2 = [] := by
  intro c
  induction c with
  | nil =>
    intro v p hp
    rw [processLevelExc] at hp
    cases hp
    rfl
  | cons obsId rest ih =>
    intro v p hp
    rw [processLevelExc] at hp
    by_cases hv : obsId ∈ v
    · rw [if_pos hv] at hp
      exact ih v p hp
    · rw [if_neg hv] at hp
      by_cases hg : obsId ∈ g.obs_ids
      · rw [if_pos hg] at hp
        exact absurd hp (by simp)
      · rw [if_neg hg] at hp
        cases hrec : processLevelExc g s hop (obsId :: v) rest with
        | ok q =>
          rw [hrec] at hp
          simp only [exceptOk_bind] at hp
          injection hp with hp
          cases hp
          exact ih (obsId :: v) q hrec
        | error e =>
          rw [hrec] at hp
          simp only [exceptError_bind] at hp
          exact Except.noConfusion hp

/-- A successful (non-raising) traversal returns no result at all. -/
lemma traverseLoopExc_ok_empty (g : GraphStore) (s : ℚ) :
    ∀ (fuel : Nat) (v c : List Nat) (hop : Nat) (r : List (Nat × Nat)),
      traverseLoopExc g s fuel v c hop = Except.ok r → r = [] := by
  intro fuel
  induction fuel with
  | zero =>
    intro v c hop r hr
    rw [traverseLoopExc] at hr
    cases hr
    rfl
  | succ k ih =>
    intro v c hop r hr
    rw [traverseLoopExc] at hr
    cases hlev : processLevelExc g s hop v c with
    | error e =>
      rw [hlev] at hr
      simp only [exceptError_bind] at hr
      exact Except.noConfusion hr
    | ok p =>
      rw [hlev] at hr
      simp only [exceptOk_bind] at hr
      have hfound := processLevelExc_ok_empty g s hop c v p hlev
      by_cases hnil : p.2.1 = []
      · rw [if_pos hnil] at hr
        injection hr with hr
        rw [← hr]
        exact hfound
      · rw [if_neg hnil] at hr
        cases hrec : traverseLoopExc g s k p.1 p.2.1 (hop + 1) with
        | error e =>
          rw [hrec] at hr
          simp only [exceptError_bind] at hr
          exact Except.noConfusion hr
        | ok tail =>
          rw [hrec] at hr
          simp only [exceptOk_bind] at hr
          injection hr with hr
          rw [← hr, hfound, ih p.1 p.2.1 (hop + 1) tail hrec]
          rfl

/-- The real `traverse_graph` returns the empty list on every input: either
some processed node exists in the store and marshalling it raises (absorbed
by the `except`), or no processed node exists and nothing was found. -/
lemma traverse_graph_always_empty (g : GraphStore)
    (start_observation_id : Nat) (max_hops : Nat) (min_strength : ℚ) :
    traverse_graph g start_observation_id max_hops min_strength = [] := by
  rw [traverse_graph, tryOrEmpty.eq_def]
  cases h : traverseLoopExc g min_strength max_hops
      [] [start_observation_id] 0 with
  | ok r =>
    exact traverseLoopExc_ok_empty g min_strength max_hops
      [] [start_observation_id] 0 r h
  | error e => rfl

/-- Ids reachable from `startId` by at most `n` edges of strength at least
`minStrength` (membership in `reachWithin g s startId n` is cumulative in
`n`); the BFS level of a node is the least such `n`. -/
def reachWithin (g : GraphStore) (minStrength : ℚ) (startId : Nat) :
    Nat → List Nat
  | 0 => [startId]
  | n + 1 =>
    reachWithin g minStrength startId n
      ++ (reachWithin g minStrength startId n).flatMap
        (neighborIds g.edges minStrength)

lemma reachWithin_mono (g : GraphStore) (s : ℚ) (start : Nat) {m n : Nat}
    (hmn : m ≤ n) {x : Nat} (hx : x ∈ reachWithin g s start m) :
    x ∈ reachWithin g s start n := by
  induction n with
  | zero =>
    have : m = 0 := by omega
    exact this ▸ hx
  | succ k ih =>
    rcases Nat.lt_or_ge m (k + 1) with hlt | hge
    · have hx' := ih (by omega)
      simp only [reachWithin, List.mem_append]
      exact Or.inl hx'
    · have : m = k + 1 := by omega
      exact this ▸ hx

/-- Every (id, hop) found while processing one level carries the level's hop
value, comes from the frontier, was not previously visited, and exists in the
store. -/
lemma processLevelIntended_found (g : GraphStore) (s : ℚ) (hop : Nat) :
    ∀ (c v : List Nat), ∀ q ∈ (processLevelIntended g s hop v c).2.2,
      q.2 = hop ∧ q.1 ∈ c ∧ q.1 ∉ v ∧ q.1 ∈ g.obs_ids := by
  intro c
  induction c with
  | nil => intro v q hq; simp [processLevelIntended] at hq
  | cons obsId rest ih =>
    intro v q hq
    rw [processLevelIntended] at hq
    by_cases hv : obsId ∈ v
    · rw [if_pos hv] at hq
      have := ih v q hq
      exact ⟨this.1, List.mem_cons_of_mem _ this.2.1, this.2.2.1, this.2.2.2⟩
    · rw [if_neg hv] at hq
      simp only [List.mem_append] at hq
      rcases hq with hq | hq
      · by_cases hg : obsId ∈ g.obs_ids
        · rw [if_pos hg] at hq
          simp only [List.mem_singleton] at hq
          subst hq
          exact ⟨rfl, List.mem_cons_self _ _, hv, hg⟩
        · rw [if_neg hg] at hq
          simp at hq
      · have := ih (obsId :: v) q hq
        refine ⟨this.1, List.mem_cons_of_mem _ this.2.1, ?_, this.2.2.2⟩
        intro hqv
        exact this.2.2.1 (List.mem_cons_of_mem _ hqv)

/-- Membership in the visited set returned by one level: the old visited set
together with the processed frontier. -/
lemma processLevelIntended_visited (g : GraphStore) (s : ℚ) (hop : Nat) :
    ∀ (c v : List Nat), ∀ x : Nat,
      (x ∈ (processLevelIntended g s hop v c).1 ↔ x ∈ v ∨ x ∈ c) := by
  intro c
  induction c with
  | nil => intro v x; simp [processLevelIntended]
  | cons obsId rest ih =>
    intro v x
    rw [processLevelIntended]
    by_cases hv : obsId ∈ v
    · rw [if_pos hv, ih]
      simp only [List.mem_cons]
      constructor
      · rintro (h | h)
        · exact Or.inl h
        · exact Or.inr (Or.inr h)
      · rintro (h | h | h)
        · exact Or.inl h
        · subst h; exact Or.inl hv
        · exact Or.inr h
    · rw [if_neg hv]
      simp only []
      rw [ih (obsId :: v) x]
      simp only [List.mem_cons]
      tauto

/-- Every id in the next frontier is a qualifying neighbor of some frontier
node of this level. -/
lemma processLevelIntended_next_sub (g : GraphStore) (s : ℚ) (hop : Nat) :
    ∀ (c v : List Nat), ∀ x ∈ (processLevelIntended g s hop v c).2.1,
      ∃ y ∈ c, x ∈ neighborIds g.edges s y := by
  intro c
  induction c with
  | nil => intro v x hx; simp [processLevelIntended] at hx
  | cons obsId rest ih =>
    intro v x hx
    rw [processLevelIntended] at hx
    by_cases hv : obsId ∈ v
    · rw [if_pos hv] at hx
      obtain ⟨y, hy, hxy⟩ := ih v x hx
      exact ⟨y, List.mem_cons_of_mem _ hy, hxy⟩
    · rw [if_neg hv] at hx
      simp only [List.mem_append] at hx
      rcases hx with hx | hx
      · exact ⟨obsId, List.mem_cons_self _ _, (List.mem_filter.mp hx).1⟩
      · obtain ⟨y, hy, hxy⟩ := ih (obsId :: v) x hx
        exact ⟨y, List.mem_cons_of_mem _ hy, hxy⟩

/-- Completeness of the next frontier: a qualifying neighbor of an unvisited
frontier node ends up either visited at this level or in the next frontier. -/
lemma processLevelIntended_next_complete (g : GraphStore) (s : ℚ) (hop : Nat) :
    ∀ (c v : List Nat), ∀ y ∈ c, y ∉ v → ∀ x ∈ neighborIds g.edges s y,
      x ∉ (processLevelIntended g s hop v c).1 → x ∈ (processLevelIntended g s hop v c).2.1 := by
  intro c
  induction c with
  | nil => intro v y hy; simp at hy
  | cons obsId rest ih =>
    intro v y hy hyv x hx hxnv
    rw [processLevelIntended] at hxnv ⊢
    by_cases hv : obsId ∈ v
    · rw [if_pos hv] at hxnv ⊢
      rcases List.mem_cons.mp hy with hy | hy
      · exact absurd (hy ▸ hv) hyv
      · exact ih v y hy hyv x hx hxnv
    · rw [if_neg hv] at hxnv ⊢
      simp only [List.mem_append]
      by_cases hyo : y = obsId
      · subst hyo
        left
        rw [List.mem_filter]
        refine ⟨hx, ?_⟩
        simp only [decide_eq_true_eq]
        intro hxin
        apply hxnv
        rw [processLevelIntended_visited]
        exact Or.inl hxin
      · rcases List.mem_cons.mp hy with hy | hy
        · exact absurd hy hyo
        · right
          refine ih (obsId :: v) y hy ?_ x hx hxnv
          simp only [List.mem_cons]
          tauto

/-- Ids found at one level are pairwise distinct, and all end up visited. -/
lemma processLevelIntended_found_nodup (g : GraphStore) (s : ℚ) (hop : Nat) :
    ∀ (c v : List Nat),
      (processLevelIntended g s hop v c).2.2.Pairwise (fun p q => p.1 ≠ q.1) := by
  intro c
  induction c with
  | nil => intro v; simp [processLevelIntended]
  | cons obsId rest ih =>
    intro v
    rw [processLevelIntended]
    by_cases hv : obsId ∈ v
    · rw [if_pos hv]
      exact ih v
    · rw [if_neg hv]
      simp only []
      rw [List.pairwise_append]
      refine ⟨?_, ih (obsId :: v), ?_⟩
      · by_cases hg : obsId ∈ g.obs_ids <;> simp [hg]
      · intro p hp q hq
        have hq' := processLevelIntended_found g s hop rest (obsId :: v) q hq
        by_cases hg : obsId ∈ g.obs_ids
        · rw [if_pos hg] at hp
          simp only [List.mem_singleton] at hp
          subst hp
          intro hpq
          exact hq'.2.2.1 (by rw [← hpq]; exact List.mem_cons_self obsId v)
        · rw [if_neg hg] at hp
          simp at hp

lemma traverseLoopIntended_hop_bound (g : GraphStore) (s : ℚ) :
    ∀ (fuel : Nat) (v c : List Nat) (hop : Nat),
      ∀ q ∈ traverseLoopIntended g s fuel v c hop, hop ≤ q.2 ∧ q.2 < hop + fuel := by
  intro fuel
  induction fuel with
  | zero => intro v c hop q hq; simp [traverseLoopIntended] at hq
  | succ k ih =>
    intro v c hop q hq
    rw [traverseLoopIntended] at hq
    simp only [List.mem_append] at hq
    rcases hq with hq | hq
    · have h := (processLevelIntended_found g s hop c v q hq).1
      omega
    · by_cases hnil : (processLevelIntended g s hop v c).2.1 = []
      · rw [if_pos hnil] at hq
        simp at hq
      · rw [if_neg hnil] at hq
        have := ih (processLevelIntended g s hop v c).1
          (processLevelIntended g s hop v c).2.1 (hop + 1) q hq
        omega

lemma traverseLoopIntended_not_visited (g : GraphStore) (s : ℚ) :
    ∀ (fuel : Nat) (v c : List Nat) (hop : Nat),
      ∀ q ∈ traverseLoopIntended g s fuel v c hop, q.1 ∉ v := by
  intro fuel
  induction fuel with
  | zero => intro v c hop q hq; simp [traverseLoopIntended] at hq
  | succ k ih =>
    intro v c hop q hq
    rw [traverseLoopIntended] at hq
    simp only [List.mem_append] at hq
    rcases hq with hq | hq
    · exact (processLevelIntended_found g s hop c v q hq).2.2.1
    · by_cases hnil : (processLevelIntended g s hop v c).2.1 = []
      · rw [if_pos hnil] at hq
        simp at hq
      · rw [if_neg hnil] at hq
        have hnv := ih (processLevelIntended g s hop v c).1
          (processLevelIntended g s hop v c).2.1 (hop + 1) q hq
        intro hqv
        exact hnv ((processLevelIntended_visited g s hop c v q.1).mpr (Or.inl hqv))

lemma traverseLoopIntended_nodup (g : GraphStore) (s : ℚ) :
    ∀ (fuel : Nat) (v c : List Nat) (hop : Nat),
      (traverseLoopIntended g s fuel v c hop).Pairwise (fun p q => p.1 ≠ q.1) := by
  intro fuel
  induction fuel with
  | zero => intro v c hop; simp [traverseLoopIntended]
  | succ k ih =>
    intro v c hop
    rw [traverseLoopIntended]
    rw [List.pairwise_append]
    refine ⟨processLevelIntended_found_nodup g s hop c v, ?_, ?_⟩
    · by_cases hnil : (processLevelIntended g s hop v c).2.1 = []
      · rw [if_pos hnil]
        exact List.Pairwise.nil
      · rw [if_neg hnil]
        exact ih _ _ _
    · intro p hp q hq
      by_cases hnil : (processLevelIntended g s hop v c).2.1 = []
      · rw [if_pos hnil] at hq
        simp at hq
      · rw [if_neg hnil] at hq
        have hqnv := traverseLoopIntended_not_visited g s k _ _ _ q hq
        have hpin : p.1 ∈ (processLevelIntended g s hop v c).1 :=
          (processLevelIntended_visited g s hop c v p.1).mpr
            (Or.inr (processLevelIntended_found g s hop c v p hp).2.1)
        intro hpq
        exact hqnv (hpq ▸ hpin)

/-- Invariant of the level-synchronous loop: at the start of the iteration
for level `hop`, the visited set holds exactly the nodes within `hop - 1`
edges of the start, and the frontier holds all nodes at BFS level exactly
`hop` (and only nodes within `hop` edges). -/
def LevelInv (g : GraphStore) (s : ℚ) (start : Nat)
    (visited current : List Nat) (hop : Nat) : Prop :=
  (∀ x, x ∈ visited ↔ (0 < hop ∧ x ∈ reachWithin g s start (hop - 1))) ∧
  (∀ x ∈ current, x ∈ reachWithin g s start hop) ∧
  (∀ x, x ∈ reachWithin g s start hop → x ∉ visited → x ∈ current)

lemma levelInv_init (g : GraphStore) (s : ℚ) (start : Nat) :
    LevelInv g s start [] [start] 0 := by
  refine ⟨by simp, ?_, ?_⟩
  · intro x hx
    simpa [reachWithin] using hx
  · intro x hx _
    simpa [reachWithin] using hx

lemma processLevelIntended_preserves_inv (g : GraphStore) (s : ℚ) (start : Nat)
    (v c : List Nat) (hop : Nat) (hinv : LevelInv g s start v c hop) :
    (∀ x, x ∈ (processLevelIntended g s hop v c).1 ↔ x ∈ reachWithin g s start hop) ∧
    LevelInv g s start (processLevelIntended g s hop v c).1
      (processLevelIntended g s hop v c).2.1 (hop + 1) := by
  obtain ⟨hv, hc, hcomp⟩ := hinv
  have hA : ∀ x, x ∈ (processLevelIntended g s hop v c).1
      ↔ x ∈ reachWithin g s start hop := by
    intro x
    rw [processLevelIntended_visited]
    constructor
    · rintro (hx | hx)
      · obtain ⟨hpos, hx⟩ := (hv x).mp hx
        exact reachWithin_mono g s start (by omega) hx
      · exact hc x hx
    · intro hx
      by_cases hxv : x ∈ v
      · exact Or.inl hxv
      · exact Or.inr (hcomp x hx hxv)
  refine ⟨hA, ?_, ?_, ?_⟩
  · intro x
    rw [hA x]
    constructor
    · intro hx
      exact ⟨by omega, by simpa using hx⟩
    · intro hx
      simpa using hx.2
  · intro x hx
    obtain ⟨y, hy, hxy⟩ := processLevelIntended_next_sub g s hop c v x hx
    have hyr := hc y hy
    rw [reachWithin]
    rw [List.mem_append]
    right
    rw [List.mem_flatMap]
    exact ⟨y, hyr, hxy⟩
  · intro x hx hxnv
    rw [hA x] at hxnv
    rw [reachWithin, List.mem_append] at hx
    rcases hx with hx | hx
    · exact absurd hx hxnv
    · rw [List.mem_flatMap] at hx
      obtain ⟨y, hyr, hxy⟩ := hx
      by_cases hyv : y ∈ v
      · exfalso
        obtain ⟨hpos, hyr'⟩ := (hv y).mp hyv
        apply hxnv
        have : x ∈ reachWithin g s start ((hop - 1) + 1) := by
          rw [reachWithin, List.mem_append]
          right
          rw [List.mem_flatMap]
          exact ⟨y, hyr', hxy⟩
        exact reachWithin_mono g s start (by omega) this
      · have hyc := hcomp y hyr hyv
        have hxnv' : x ∉ (processLevelIntended g s hop v c).1 := by
          rw [hA x]
          exact hxnv
        exact processLevelIntended_next_complete g s hop c v y hyc hyv x hxy hxnv'

lemma traverseLoopIntended_bfs (g : GraphStore) (s : ℚ) (start : Nat) :
    ∀ (fuel : Nat) (v c : List Nat) (hop : Nat), LevelInv g s start v c hop →
      ∀ q ∈ traverseLoopIntended g s fuel v c hop,
        q.1 ∈ reachWithin g s start q.2 ∧
        ∀ m < q.2, q.1 ∉ reachWithin g s start m := by
  intro fuel
  induction fuel with
  | zero => intro v c hop _ q hq; simp [traverseLoopIntended] at hq
  | succ k ih =>
    intro v c hop hinv q hq
    rw [traverseLoopIntended] at hq
    simp only [List.mem_append] at hq
    rcases hq with hq | hq
    · obtain ⟨hhop, hqc, hqnv, _⟩ := processLevelIntended_found g s hop c v q hq
      subst hhop
      refine ⟨hinv.2.1 q.1 hqc, ?_⟩
      intro m hm hqm
      have hpos : 0 < q.2 := by omega
      apply hqnv
      rw [hinv.1 q.1]
      exact ⟨hpos, reachWithin_mono g s start (by omega) hqm⟩
    · by_cases hnil : (processLevelIntended g s hop v c).2.1 = []
      · rw [if_pos hnil] at hq
        simp at hq
      · rw [if_neg hnil] at hq
        exact ih _ _ (hop + 1)
          (processLevelIntended_preserves_inv g s start v c hop hinv).2 q hq

/-- The intended traversal logic satisfies the BFS characterization:
distinct nodes, hop bounds, hop = BFS level. -/
lemma traverse_graph_intended_bfs_levels (g : GraphStore)
    (start_observation_id : Nat) (max_hops : Nat) (min_strength : ℚ) :
    (traverse_graph_intended g start_observation_id max_hops
      min_strength).Pairwise (fun p q => p.1 ≠ q.1) ∧
    ∀ q ∈ traverse_graph_intended g start_observation_id max_hops
        min_strength,
      q.2 ≤ max_hops ∧
      q.1 ∈ reachWithin g min_strength start_observation_id q.2 ∧
      ∀ m < q.2, q.1 ∉ reachWithin g min_strength start_observation_id m := by
  constructor
  · exact traverseLoopIntended_nodup g min_strength max_hops
      [] [start_observation_id] 0
  · intro q hq
    have hb := traverseLoopIntended_hop_bound g min_strength max_hops []
      [start_observation_id] 0 q hq
    have hbfs := traverseLoopIntended_bfs g min_strength start_observation_id
      max_hops [] [start_observation_id] 0
      (levelInv_init g min_strength start_observation_id) q hq
    exact ⟨by omega, hbfs.1, hbfs.2⟩

/-- C4 (code bug): the claimed BFS characterization is the evident intent —
the docstring promises the observations reachable within `max_hops`, and
`traverse_graph_intended` (the source with the one-token marshalling slip
fixed) provably satisfies it — but the source as written marshals each found
node through `dict(obs.metadata)`, which raises `TypeError` (the column is
`meta_data`; `obs.metadata` is the SQLAlchemy registry), so the real
`traverse_graph` returns `[]` on every input.  At the failing input (store
holding nodes 1 and 2 with one strong edge, start 1, two hops) the intended
traversal returns node 1 at hop 0 and node 2 at hop 1; the code returns
nothing. -/
theorem traverse_graph_metadata_marshalling_bug :
    (∀ (g : GraphStore) (start_observation_id max_hops : Nat)
      (min_strength : ℚ),
      traverse_graph g start_observation_id max_hops min_strength = []) ∧
    traverse_graph (GraphStore.mk [1, 2] [CoEdge.mk 1 2 1]) 1 2 0 = [] ∧
    traverse_graph_intended (GraphStore.mk [1, 2] [CoEdge.mk 1 2 1]) 1 2 0
      = [(1, 0), (2, 1)] ∧
    ∀ (g : GraphStore) (start_observation_id max_hops : Nat)
        (min_strength : ℚ),
      (traverse_graph_intended g start_observation_id max_hops
        min_strength).Pairwise (fun p q => p.1 ≠ q.1) ∧
      ∀ q ∈ traverse_graph_intended g start_observation_id max_hops
          min_strength,
        q.2 ≤ max_hops ∧
        q.1 ∈ reachWithin g min_strength start_observation_id q.2 ∧
        ∀ m < q.2, q.1 ∉ reachWithin g min_strength start_observation_id m := by
  refine ⟨traverse_graph_always_empty,
    traverse_graph_always_empty _ _ _ _, by decide, ?_⟩
  intro g start_observation_id max_hops min_strength
  exact traverse_graph_intended_bfs_levels g start_observation_id max_hops
    min_strength

/-- Witness for `traverse_graph_metadata_marshalling_bug`: at the failing
input, node 2 is returned by the intended traversal at hop 1, its BFS level
(reachable within 1 edge, not within 0). -/
theorem traverse_graph_metadata_marshalling_bug_witness :
    ((2 : Nat), (1 : Nat)) ∈ traverse_graph_intended
      (GraphStore.mk [1, 2] [CoEdge.mk 1 2 1]) 1 2 0 ∧
    (((2 : Nat), (1 : Nat)).2 ≤ 2 ∧
      ((2 : Nat), (1 : Nat)).1 ∈ reachWithin
        (GraphStore.mk [1, 2] [CoEdge.mk 1 2 1]) 0 1
        ((2 : Nat), (1 : Nat)).2 ∧
      ∀ m < ((2 : Nat), (1 : Nat)).2,
        ((2 : Nat), (1 : Nat)).1 ∉ reachWithin
          (GraphStore.mk [1, 2] [CoEdge.mk 1 2 1]) 0 1 m) ∧
    (0 < 1 ∧ ((2 : Nat), (1 : Nat)).1 ∉ reachWithin
      (GraphStore.mk [1, 2] [CoEdge.mk 1 2 1]) 0 1 0) := by
  have h := (traverse_graph_metadata_marshalling_bug.2.2.2
    (GraphStore.mk [1, 2] [CoEdge.mk 1 2 1]) 1 2 0).2
    ((2 : Nat), (1 : Nat)) (by decide)
  exact ⟨by decide, h, by decide, h.2.2 0 (by decide)⟩

/-- C10: `traverse_graph` with `max_hops = 0` returns the empty list (the
start node itself is not returned), and no returned hop annotation reaches
`max_hops`.  Both facts are true of the program — the marshalling
`TypeError` makes every traversal result empty — and, non-vacuously, of the
traversal logic itself: the intended traversal expands only levels
`0 .. max_hops - 1`. -/
theorem traverse_graph_zero_hops_and_strict_bound :
    (∀ (g : GraphStore) (start_observation_id : Nat) (min_strength : ℚ),
      traverse_graph g start_observation_id 0 min_strength = []) ∧
    (∀ (g : GraphStore) (start_observation_id max_hops : Nat)
      (min_strength : ℚ),
      (traverse_graph g start_observation_id max_hops min_strength).all
        (fun q => decide (q.2 < max_hops)) = true) ∧
    (∀ (g : GraphStore) (start_observation_id : Nat) (min_strength : ℚ),
      traverse_graph_intended g start_observation_id 0 min_strength = []) ∧
    ∀ (g : GraphStore) (start_observation_id max_hops : Nat)
        (min_strength : ℚ),
      ∀ q ∈ traverse_graph_intended g start_observation_id max_hops
        min_strength, q.2 < max_hops := by
  refine ⟨?_, ?_, ?_, ?_⟩
  · intro g start_observation_id min_strength
    exact traverse_graph_always_empty g start_observation_id 0 min_strength
  · intro g start_observation_id max_hops min_strength
    rw [traverse_graph_always_empty]
    rfl
  · intro g start_observation_id min_strength
    rfl
  · intro g start_observation_id max_hops min_strength q hq
    have := traverseLoopIntended_hop_bound g min_strength max_hops []
      [start_observation_id] 0 q hq
    omega

/-- Witness for `traverse_graph_zero_hops_and_strict_bound`: the intended
traversal over the single strong edge 1–2 returns node 2 at hop 1 < 2. -/
theorem traverse_graph_zero_hops_and_strict_bound_witness :
    ((2 : Nat), (1 : Nat)) ∈ traverse_graph_intended
      (GraphStore.mk [1, 2] [CoEdge.mk 1 2 1]) 1 2 0 ∧
    ((2 : Nat), (1 : Nat)).2 < 2 := by
  refine ⟨by decide, ?_⟩
  exact traverse_graph_zero_hops_and_strict_bound.2.2.2
    (GraphStore.mk [1, 2] [CoEdge.mk 1 2 1]) 1 2 0
    ((2 : Nat), (1 : Nat)) (by decide)


/-! ## Semantic search (`RetrievalTools.semantic_search`)

The stored observation is projected to the fields the operation reads: its
identifier, source document id, optional document timestamp and context
text.  The embedding vectors and the query embedding enter only through the
pgvector expression `Observation.embedding.cosine_distance(query_embedding)`,
embedded as an abstract per-row distance `dist : SObs → ℚ` (the Embedder is
an external capability); `similarity = 1 - distance` exactly as the source
computes it.

The SQL `ORDER BY distance LIMIT k` over the filtered table is embedded as a
sort of the table rows by distance followed by `take`; SQL guarantees no
particular order among equal distances, and no theorem below depends on the
tie order chosen by the embedding.  The source then walks those `k` rows
and, for each row with `similarity >= min_similarity`, builds a result dict
whose 'metadata' entry evaluates `dict(obs.metadata)` — which raises
`TypeError`, because the column is `meta_data` and `obs.metadata` is the
SQLAlchemy `MetaData` registry (see the traversal section).  The `except`
absorbs the raise, so the real `semantic_search` returns `[]` on every
input: either some row passes the threshold and marshalling it raises, or no
row passes and the result list stays empty.  `semantic_search_intended`
models the loop with the one-token slip fixed.

The Python default `k = k or config.SEMANTIC_SEARCH_K` treats both `None`
and `0` as unset (`0` is falsy), embedded exactly by `pyOrDefault`. -/

structure SObs where
  id : Nat
  doc_id : Nat
  doc_timestamp : Option Int
  context : String
deriving DecidableEq

structure SearchFilters where
  doc_id : Option Nat
  date_range : Option (Int × Int)
deriving DecidableEq

/-- The optional equality filter on `doc_id` and the inclusive timestamp
range filter (a SQL comparison with a NULL timestamp is not satisfied). -/
def passesFilters (filters : SearchFilters) (o : SObs) : Bool :=
  (match filters.doc_id with
   | none => true
   | some d => decide (o.doc_id = d)) &&
  (match filters.date_range with
   | none => true
   | some r =>
     match o.doc_timestamp with
     | none => false
     | some t => decide (r.1 ≤ t ∧ t ≤ r.2))

/-- Python `k or default`: `None` and `0` are both falsy and yield the
default. -/
def pyOrDefault (k : Option Nat) (dflt : Nat) : Nat :=
  match k with
  | none => dflt
  | some n => if n = 0 then dflt else n

def distLe (dist : SObs → ℚ) (a b : SObs) : Bool := decide (dist a ≤ dist b)

/-- The filtered table ranked by ascending distance (descending
similarity).  The embedding determinizes equal-distance order as table
order; the source's `ORDER BY distance` gives no guarantee there, and no
theorem in this file depends on that choice. -/
def rankedByDistance (store : List SObs) (dist : SObs → ℚ)
    (filters : SearchFilters) : List SObs :=
  (store.filter (passesFilters filters)).mergeSort (distLe dist)

/-- The conversion loop with the marshalling slip fixed (intended
semantics): keep, of the first `kEff` ranked rows, those whose similarity
meets the threshold, annotated with their similarity. -/
def semantic_search_intended (store : List SObs) (dist : SObs → ℚ)
    (k : Option Nat) (semantic_search_k : Nat) (min_similarity : ℚ)
    (filters : SearchFilters) : List (SObs × ℚ) :=
  ((rankedByDistance store dist filters).take
      (pyOrDefault k semantic_search_k)).filterMap
    (fun o => if min_similarity ≤ 1 - dist o then some (o, 1 - dist o)
      else none)

/-- The conversion loop as the source actually executes it: a row whose
similarity meets the threshold is marshalled into a result dict, whose
`dict(obs.metadata)` entry raises `TypeError`; rows below the threshold
append nothing. -/
def marshalPassing (dist : SObs → ℚ) (min_similarity : ℚ) :
    List SObs → Except String (List (SObs × ℚ))
  | [] => Except.ok []
  | o :: rest =>
    if min_similarity ≤ 1 - dist o then Except.error "TypeError"
    else marshalPassing dist min_similarity rest

/-- `RetrievalTools.semantic_search` as the source executes it: the ranked,
truncated rows are marshalled behind the `try/except`. -/
def semantic_search (store : List SObs) (dist : SObs → ℚ) (k : Option Nat)
    (semantic_search_k : Nat) (min_similarity : ℚ)
    (filters : SearchFilters) : List (SObs × ℚ) :=
  tryOrEmpty (marshalPassing dist min_similarity
    ((rankedByDistance store dist filters).take
      (pyOrDefault k semantic_search_k)))

/-- A successful (non-raising) pass over the rows collected nothing: every
threshold-passing row would have raised while being marshalled. -/
lemma marshalPassing_ok_empty (dist : SObs → ℚ) (min_similarity : ℚ) :
    ∀ (l : List SObs) (r : List (SObs × ℚ)),
      marshalPassing dist min_similarity l = Except.ok r → r = [] := by
  intro l
  induction l with
  | nil =>
    intro r hr
    rw [marshalPassing] at hr
    cases hr
    rfl
  | cons o rest ih =>
    intro r hr
    rw [marshalPassing] at hr
    by_cases hpass : min_similarity ≤ 1 - dist o
    · rw [if_pos hpass] at hr
      exact Except.noConfusion hr
    · rw [if_neg hpass] at hr
      exact ih r hr

/-- The real `semantic_search` returns the empty list on every input. -/
lemma semantic_search_always_empty (store : List SObs) (dist : SObs → ℚ)
    (k : Option Nat) (semantic_search_k : Nat) (min_similarity : ℚ)
    (filters : SearchFilters) :
    semantic_search store dist k semantic_search_k min_similarity filters
      = [] := by
  rw [semantic_search, tryOrEmpty.eq_def]
  cases h : marshalPassing dist min_similarity
      ((rankedByDistance store dist filters).take
        (pyOrDefault k semantic_search_k)) with
  | ok r =>
    exact marshalPassing_ok_empty dist min_similarity _ r h
  | error e => rfl

/-- C5 (code bug): the claimed ranked/thresholded/truncated result is the
evident intent — the docstring promises observation dictionaries with
similarity scores, and `semantic_search_intended` (the source with the
marshalling slip fixed) returns exactly the threshold-passing ranked rows —
but the source as written raises `TypeError` in `dict(obs.metadata)` while
marshalling the first threshold-passing row, the `except` absorbs it, and
the real `semantic_search` returns `[]` on every input.  At the failing
input (a single stored observation at distance 0, so similarity 1 ≥
threshold 0, and k = 5) the intended loop returns that observation with
similarity 1; the code returns nothing. -/
theorem semantic_search_metadata_marshalling_bug :
    (∀ (store : List SObs) (dist : SObs → ℚ) (k : Option Nat)
      (semantic_search_k : Nat) (min_similarity : ℚ)
      (filters : SearchFilters),
      semantic_search store dist k semantic_search_k min_similarity filters
        = []) ∧
    semantic_search [SObs.mk 1 0 none ""] (fun _ => 0) (some 5) 20 0
      (SearchFilters.mk none none) = [] ∧
    semantic_search_intended [SObs.mk 1 0 none ""] (fun _ => 0) (some 5) 20 0
      (SearchFilters.mk none none) = [(SObs.mk 1 0 none "", 1)] := by
  refine ⟨semantic_search_always_empty,
    semantic_search_always_empty _ _ _ _ _ _, ?_⟩
  have h2 : rankedByDistance [SObs.mk 1 0 none ""] (fun _ => 0)
      (SearchFilters.mk none none) = [SObs.mk 1 0 none ""] := by
    simp [rankedByDistance, passesFilters, List.filter]
  rw [semantic_search_intended, h2]
  norm_num [pyOrDefault, List.filterMap]

/-! ## Greedy clustering (`RetrievalTools.cluster_observations`)

The source fetches the stored observations whose ids are in the input list
(`filter(Observation.id.in_(observation_ids))` — ids absent from the store
are silently omitted, and the fetched rows are determinized here in table
order), then greedily clusters: iterate the fetched ids; each unassigned id
seeds a new cluster and absorbs every later unassigned id whose embedding
similarity to the seed reaches the threshold.  Cosine similarity of two
stored embeddings enters only through the comparison with the threshold and
is embedded as an abstract symmetric-free function `sim` of the two ids. -/

def clusterGo (sim : Nat → Nat → ℚ) (threshold : ℚ) :
    List Nat → List (List Nat)
  | [] => []
  | seed :: rest =>
    (seed :: rest.filter (fun x => decide (threshold ≤ sim seed x))) ::
      clusterGo sim threshold
        (rest.filter (fun x => decide (¬ threshold ≤ sim seed x)))
termination_by l => l.length
decreasing_by
  simp only [List.length_cons]
  have := List.length_filter_le
    (fun x => decide (¬ threshold ≤ sim seed x)) rest
  omega

def cluster_observations (storeIds : List Nat) (sim : Nat → Nat → ℚ)
    (similarity_threshold : ℚ) (observation_ids : List Nat) :
    List (List Nat) :=
  clusterGo sim similarity_threshold
    (storeIds.filter (fun i => decide (i ∈ observation_ids)))

lemma clusterGo_flatten_perm (sim : Nat → Nat → ℚ) (thr : ℚ) (l : List Nat) :
    (clusterGo sim thr l).flatten.Perm l := by
  match l with
  | [] => rw [clusterGo]; rfl
  | seed :: rest =>
    rw [clusterGo]
    have ih := clusterGo_flatten_perm sim thr
      (rest.filter (fun x => decide (¬ thr ≤ sim seed x)))
    rw [List.flatten_cons, List.cons_append]
    refine List.Perm.cons seed ?_
    refine List.Perm.trans (List.Perm.append_left _ ih) ?_
    have h := List.filter_append_perm
      (fun x => decide (thr ≤ sim seed x)) rest
    simp only [decide_not]
    exact h
termination_by l.length
decreasing_by
  simp only [List.length_cons]
  have := List.length_filter_le
    (fun x => decide (¬ thr ≤ sim seed x)) rest
  omega

/-- C6 counterexample to the claim as stated: an input id absent from the
store appears in no output cluster, so the output is not a partition of the
input id set. -/
theorem cluster_observations_omits_missing_input_id :
    ¬ ∃ c ∈ cluster_observations [2] (fun _ _ => (0 : ℚ)) 0 [1],
      (1 : Nat) ∈ c := by
  have hf : ([2] : List Nat).filter (fun i => decide (i ∈ [1])) = [] := by
    decide
  have h : cluster_observations [2] (fun _ _ => (0 : ℚ)) 0 [1] = [] := by
    rw [cluster_observations, hf, clusterGo]
  rw [h]
  simp

/-- C6 (amended): `cluster_observations` partitions the set of input ids
that are present in the store; ids missing from the store are omitted.  In
particular, when every input id is present (store ids being distinct, as
primary keys are), every input id appears in exactly one output cluster,
with no duplicates and no omissions. -/
theorem cluster_observations_partition (storeIds : List Nat)
    (sim : Nat → Nat → ℚ) (similarity_threshold : ℚ)
    (observation_ids : List Nat) (hnodup : storeIds.Nodup)
    (hpresent : ∀ i ∈ observation_ids, i ∈ storeIds) :
    (∀ x : Nat, (∃ c ∈ cluster_observations storeIds sim
        similarity_threshold observation_ids, x ∈ c)
      ↔ x ∈ observation_ids) ∧
    (∀ c ∈ cluster_observations storeIds sim similarity_threshold
        observation_ids, c.Nodup) ∧
    (cluster_observations storeIds sim similarity_threshold
        observation_ids).Pairwise List.Disjoint := by
  set filtered := storeIds.filter (fun i => decide (i ∈ observation_ids))
    with hfiltered
  have hperm : (cluster_observations storeIds sim similarity_threshold
      observation_ids).flatten.Perm filtered :=
    clusterGo_flatten_perm sim similarity_threshold filtered
  have hfnodup : filtered.Nodup := hnodup.filter _
  have hflatnodup : (cluster_observations storeIds sim similarity_threshold
      observation_ids).flatten.Nodup := (hperm.nodup_iff).mpr hfnodup
  have hnj := List.nodup_flatten.mp hflatnodup
  refine ⟨?_, hnj.1, hnj.2⟩
  intro x
  rw [← List.mem_flatten]
  rw [hperm.mem_iff]
  rw [hfiltered, List.mem_filter]
  simp only [decide_eq_true_eq]
  constructor
  · exact fun h => h.2
  · exact fun h => ⟨hpresent x h, h⟩

/-- Witness for `cluster_observations_partition` on a concrete store. -/
theorem cluster_observations_partition_witness :
    ([10, 20, 30] : List Nat).Nodup ∧
    (∀ i ∈ ([20, 10] : List Nat), i ∈ ([10, 20, 30] : List Nat)) ∧
    (∀ x : Nat, (∃ c ∈ cluster_observations [10, 20, 30] (fun _ _ => (0 : ℚ))
        0 [20, 10], x ∈ c) ↔ x ∈ ([20, 10] : List Nat)) := by
  refine ⟨by decide, by decide, ?_⟩
  exact (cluster_observations_partition [10, 20, 30] (fun _ _ => (0 : ℚ))
    0 [20, 10] (by decide) (by decide)).1

/-! ## Hypothesis testing (`ECUAgent.test_hypotheses`)

The step returns the state unchanged when there are no hypotheses (before
any Oracle call).  Otherwise, for each Oracle evaluation in order:

  hyp_id = evaluation['hypothesis_id']
  if hyp_id < len(hypotheses):
      hypotheses[hyp_id]['confidence'] = evaluation['new_confidence']
      hypotheses[hyp_id]['num_tests'] += 1
      hypotheses[hyp_id]['tested_at_iteration'] = state['iterations']

The guard only rejects `hyp_id >= len(hypotheses)`.  A negative `hyp_id`
passes the guard and `hypotheses[hyp_id]` follows Python indexing: for
`-len <= hyp_id < 0` it addresses `hypotheses[len + hyp_id]`, and for
`hyp_id < -len` it raises `IndexError` (which propagates out of the step,
modelled as `Except.error`). -/

structure HypEvaluation where
  hypothesis_id : Int
  verdict : String
  new_confidence : ℚ
deriving DecidableEq

/-- The three in-place dict mutations on `hypotheses[j]`. -/
def pyUpdateHyp (iterations : Nat) (hyps : List Hypothesis) (j : Nat)
    (newConf : ℚ) : List Hypothesis :=
  match hyps[j]? with
  | some h => hyps.set j { h with
      confidence := newConf
      num_tests := h.num_tests + 1
      tested_at_iteration := iterations }
  | none => hyps

def applyEvaluation (iterations : Nat) (hyps : List Hypothesis)
    (ev : HypEvaluation) : Except Unit (List Hypothesis) :=
  if ev.hypothesis_id < (hyps.length : Int) then
    if 0 ≤ ev.hypothesis_id then
      Except.ok (pyUpdateHyp iterations hyps ev.hypothesis_id.toNat
        ev.new_confidence)
    else if -(hyps.length : Int) ≤ ev.hypothesis_id then
      Except.ok (pyUpdateHyp iterations hyps
        ((hyps.length : Int) + ev.hypothesis_id).toNat ev.new_confidence)
    else Except.error ()
  else Except.ok hyps

def test_hypotheses (hyps : List Hypothesis) (evals : List HypEvaluation)
    (iterations : Nat) : Except Unit (List Hypothesis) :=
  if hyps = [] then Except.ok hyps
  else evals.foldlM (fun acc ev => applyEvaluation iterations acc ev) hyps

/-- C8 counterexample to the claim as stated: with one hypothesis, an
evaluation keyed by index `-1` is not an index of the list, yet it is not
ignored — it updates the last hypothesis (Python wraparound) — and an
evaluation keyed by `-2` raises an `IndexError` instead of being ignored. -/
theorem test_hypotheses_negative_index_not_ignored :
    test_hypotheses [Hypothesis.mk 0 "" 1 [] [] 0 "" 0 0]
        [HypEvaluation.mk (-1) "support" 5] 3
      = Except.ok [Hypothesis.mk 0 "" 5 [] [] 0 "" 3 1] ∧
    Hypothesis.mk 0 "" 5 [] [] 0 "" 3 1 ≠ Hypothesis.mk 0 "" 1 [] [] 0 "" 0 0 ∧
    test_hypotheses [Hypothesis.mk 0 "" 1 [] [] 0 "" 0 0]
        [HypEvaluation.mk (-2) "support" 5] 3 = Except.error () := by
  refine ⟨rfl, by decide, rfl⟩

lemma applyEvaluation_skip (iterations : Nat) (hyps : List Hypothesis)
    (ev : HypEvaluation) (hge : (hyps.length : Int) ≤ ev.hypothesis_id) :
    applyEvaluation iterations hyps ev = Except.ok hyps := by
  rw [applyEvaluation, if_neg (by omega)]

lemma applyEvaluation_nonneg (iterations : Nat) (hyps : List Hypothesis)
    (ev : HypEvaluation) (j : Nat) (h : Hypothesis)
    (hid : ev.hypothesis_id = (j : Int)) (hjh : hyps[j]? = some h) :
    applyEvaluation iterations hyps ev
      = Except.ok (hyps.set j { h with
          confidence := ev.new_confidence
          num_tests := h.num_tests + 1
          tested_at_iteration := iterations }) := by
  have hjlt : j < hyps.length := by
    by_contra hge
    rw [List.getElem?_eq_none (by omega)] at hjh
    exact Option.noConfusion hjh
  rw [applyEvaluation, if_pos (by omega), if_pos (by omega)]
  have htn : ev.hypothesis_id.toNat = j := by omega
  rw [htn, pyUpdateHyp, hjh]

lemma test_hypotheses_single (hyps : List Hypothesis) (ev : HypEvaluation)
    (iterations : Nat) (hne : hyps ≠ []) :
    test_hypotheses hyps [ev] iterations
      = applyEvaluation iterations hyps ev := by
  rw [test_hypotheses, if_neg hne]
  show (applyEvaluation iterations hyps ev >>= fun b =>
    List.foldlM (fun acc ev => applyEvaluation iterations acc ev) b []) = _
  cases happ : applyEvaluation iterations hyps ev <;> rfl

lemma foldlM_skip_all (iterations : Nat) (hyps : List Hypothesis) :
    ∀ evals : List HypEvaluation,
      (∀ ev ∈ evals, (hyps.length : Int) ≤ ev.hypothesis_id) →
      evals.foldlM (fun acc ev => applyEvaluation iterations acc ev) hyps
        = Except.ok hyps := by
  intro evals
  induction evals with
  | nil => intro _; rfl
  | cons ev rest ih =>
    intro hall
    rw [List.foldlM_cons]
    rw [applyEvaluation_skip iterations hyps ev
      (hall ev (List.mem_cons_self _ _))]
    show rest.foldlM (fun acc ev => applyEvaluation iterations acc ev) hyps
      = Except.ok hyps
    exact ih (fun e he => hall e (List.mem_cons_of_mem _ he))

/-- C8 (amended): when the hypothesis list is empty the step is a no-op on
the state.  Otherwise, an evaluation keyed by a nonnegative in-range index
updates exactly that hypothesis — confidence set to the new value, test
count incremented by one, stamped with the current iteration, all other
positions unchanged (a `set` at one index); evaluations keyed by indices
`≥ length` are all ignored; an evaluation keyed by a negative index `i` with
`-length ≤ i` follows Python wraparound and updates the hypothesis at
`length + i`; and an evaluation keyed by `i < -length` raises an
`IndexError` that propagates out of the step. -/
theorem test_hypotheses_update_semantics (hyps : List Hypothesis)
    (evals : List HypEvaluation) (iterations : Nat) :
    (test_hypotheses [] evals iterations = Except.ok []) ∧
    (∀ (ev : HypEvaluation) (j : Nat) (h : Hypothesis),
      ev.hypothesis_id = (j : Int) → hyps[j]? = some h →
      test_hypotheses hyps [ev] iterations
        = Except.ok (hyps.set j { h with
            confidence := ev.new_confidence
            num_tests := h.num_tests + 1
            tested_at_iteration := iterations })) ∧
    (∀ (j j2 : Nat) (x : Hypothesis), j2 ≠ j →
      (hyps.set j x)[j2]? = hyps[j2]?) ∧
    ((∀ ev ∈ evals, (hyps.length : Int) ≤ ev.hypothesis_id) →
      test_hypotheses hyps evals iterations = Except.ok hyps) ∧
    (∀ (ev : HypEvaluation) (h : Hypothesis), ev.hypothesis_id < 0 →
      -(hyps.length : Int) ≤ ev.hypothesis_id →
      hyps[((hyps.length : Int) + ev.hypothesis_id).toNat]? = some h →
      test_hypotheses hyps [ev] iterations
        = Except.ok (hyps.set ((hyps.length : Int) + ev.hypothesis_id).toNat
            { h with
              confidence := ev.new_confidence
              num_tests := h.num_tests + 1
              tested_at_iteration := iterations })) ∧
    (∀ ev : HypEvaluation, ev.hypothesis_id < -(hyps.length : Int) →
      hyps ≠ [] →
      test_hypotheses hyps [ev] iterations = Except.error ()) := by
  refine ⟨rfl, ?_, ?_, ?_, ?_, ?_⟩
  · intro ev j h hid hjh
    have hne : hyps ≠ [] := by
      intro hnil
      subst hnil
      simp at hjh
    rw [test_hypotheses_single hyps ev iterations hne]
    exact applyEvaluation_nonneg iterations hyps ev j h hid hjh
  · intro j j2 x hne
    exact List.getElem?_set_ne (by omega)
  · intro hall
    by_cases hnil : hyps = []
    · rw [test_hypotheses, if_pos hnil, hnil]
    · rw [test_hypotheses, if_neg hnil]
      exact foldlM_skip_all iterations hyps evals hall
  · intro ev h hneg hge hjh
    have hne : hyps ≠ [] := by
      intro hnil
      subst hnil
      simp at hneg hge
      omega
    rw [test_hypotheses_single hyps ev iterations hne]
    have hjlt : ((hyps.length : Int) + ev.hypothesis_id).toNat
        < hyps.length := by omega
    rw [applyEvaluation, if_pos (by omega), if_neg (by omega),
      if_pos hge, pyUpdateHyp, hjh]
  · intro ev hlt hne
    rw [test_hypotheses_single hyps ev iterations hne]
    rw [applyEvaluation, if_pos ?_, if_neg (by omega), if_neg (by omega)]
    have hlen : 0 < hyps.length := List.length_pos.mpr hne
    omega

/-- Witness for `test_hypotheses_update_semantics`: a concrete two-hypothesis
list where the evaluation keyed by index 1 updates exactly the second
hypothesis. -/
theorem test_hypotheses_update_semantics_witness :
    ((HypEvaluation.mk 1 "support" 9).hypothesis_id = ((1 : Nat) : Int)) ∧
    ([Hypothesis.mk 0 "" 1 [] [] 0 "" 0 0,
      Hypothesis.mk 1 "" 2 [] [] 0 "" 0 0][(1 : Nat)]?
        = some (Hypothesis.mk 1 "" 2 [] [] 0 "" 0 0)) ∧
    (test_hypotheses [Hypothesis.mk 0 "" 1 [] [] 0 "" 0 0,
        Hypothesis.mk 1 "" 2 [] [] 0 "" 0 0]
        [HypEvaluation.mk 1 "support" 9] 4
      = Except.ok ([Hypothesis.mk 0 "" 1 [] [] 0 "" 0 0,
          Hypothesis.mk 1 "" 2 [] [] 0 "" 0 0].set 1
          { Hypothesis.mk 1 "" 2 [] [] 0 "" 0 0 with
            confidence := 9
            num_tests := 0 + 1
            tested_at_iteration := 4 })) := by
  refine ⟨rfl, rfl, ?_⟩
  exact (test_hypotheses_update_semantics
    [Hypothesis.mk 0 "" 1 [] [] 0 "" 0 0, Hypothesis.mk 1 "" 2 [] [] 0 "" 0 0]
    [HypEvaluation.mk 1 "support" 9] 4).2.1
    (HypEvaluation.mk 1 "support" 9) 1 (Hypothesis.mk 1 "" 2 [] [] 0 "" 0 0)
    rfl rfl

/-! ## Failure handling of the six retrieval operations

Every retrieval operation of `RetrievalTools` wraps its body in
`try: ... except Exception: return []`.  The store accesses that can raise
(embedding generation and each `session.query(...)` execution) are modelled
as `Except`-returning primitives collected in `FallibleDB`; each operation's
body is the source's computation in the `Except` monad, and the operation
itself is the body behind the Python `try/except`, modelled by `tryOrEmpty`.
The bodies model the result marshalling as pure (the intended, slip-fixed
conversion — see the traversal and semantic-search sections for the
faithful, raising marshalling); the theorems below constrain only the error
path, on which the two agree: a raising step is absorbed to the empty list.
All primitives are reads — the source only issues SELECT queries and closes
the session — so no operation mutates the store. -/

/-- A co-occurrence join row: the neighbor observation annotated with the
edge's distance, type and strength. -/
structure CoocRow where
  obs : SObs
  distance : Option Int
  co_occurrence_type : String
  strength : ℚ
deriving DecidableEq

/-- Fallible store/session primitives, one per potentially raising call. -/
structure FallibleDB where
  embed_text : String → Except String (List ℚ)
  vector_rows : List ℚ → SearchFilters → Nat → Except String (List (SObs × ℚ))
  cooc_join : Nat → Option Nat → Nat → Except String (List CoocRow)
  obs_by_surface : String → Nat → Except String (List SObs)
  temporal_rows : Option String → Option String → Option Int → Option Int →
    Nat → Except String (List SObs)
  get_obs : Nat → Except String Bool
  neighbors : Nat → ℚ → Except String (List CoEdge)
  obs_in_ids : List Nat → Except String (List Nat)
  sim_of : Nat → Nat → ℚ

def semantic_search_body (db : FallibleDB) (query : String) (k : Option Nat)
    (semantic_search_k : Nat) (min_similarity : ℚ) (filters : SearchFilters) :
    Except String (List (SObs × ℚ)) := do
  let emb ← db.embed_text query
  let rows ← db.vector_rows emb filters (pyOrDefault k semantic_search_k)
  pure (rows.filterMap (fun r =>
    if min_similarity ≤ 1 - r.2 then some (r.1, 1 - r.2) else none))

def semantic_search_op (db : FallibleDB) (query : String) (k : Option Nat)
    (semantic_search_k : Nat) (min_similarity : ℚ) (filters : SearchFilters) :
    List (SObs × ℚ) :=
  tryOrEmpty (semantic_search_body db query k semantic_search_k
    min_similarity filters)

/-- Python truthiness of the optional arguments (`if observation_id:` /
`elif surface_form:`): `None`, `0` and `""` are falsy. -/
def pyTruthyNat : Option Nat → Bool
  | none => false
  | some n => decide (n ≠ 0)

def pyTruthyStr : Option String → Bool
  | none => false
  | some s => decide (s ≠ "")

def find_cooccurrences_body_byId (db : FallibleDB) (observation_id : Nat)
    (max_distance : Option Nat) (limit : Nat) : Except String (List CoocRow) :=
  db.cooc_join observation_id max_distance limit

def find_cooccurrences_body (db : FallibleDB) (surface_form : Option String)
    (observation_id : Option Nat) (max_distance : Option Nat) (limit : Nat) :
    Except String (List CoocRow) :=
  if pyTruthyNat observation_id then
    find_cooccurrences_body_byId db (observation_id.getD 0) max_distance limit
  else if pyTruthyStr surface_form then do
    let obs_with_form ← db.obs_by_surface (surface_form.getD "") 10
    pure (obs_with_form.flatMap (fun o =>
      if o.id ≠ 0 then
        tryOrEmpty (find_cooccurrences_body_byId db o.id max_distance limit)
      else []))
  else pure []

def find_cooccurrences_op (db : FallibleDB) (surface_form : Option String)
    (observation_id : Option Nat) (max_distance : Option Nat) (limit : Nat) :
    List CoocRow :=
  tryOrEmpty (find_cooccurrences_body db surface_form observation_id
    max_distance limit)

def temporal_query_body (db : FallibleDB) (surface_form keyword : Option String)
    (start_date end_date : Option Int) (limit : Nat) :
    Except String (List SObs) :=
  db.temporal_rows surface_form keyword start_date end_date limit

def temporal_query_op (db : FallibleDB) (surface_form keyword : Option String)
    (start_date end_date : Option Int) (limit : Nat) : List SObs :=
  tryOrEmpty (temporal_query_body db surface_form keyword start_date
    end_date limit)

def processLevelM (db : FallibleDB) (minStrength : ℚ) (hop : Nat) :
    List Nat → List Nat → Except String (List Nat × List Nat × List (Nat × Nat))
  | visited, [] => pure (visited, [], [])
  | visited, obsId :: rest =>
    if obsId ∈ visited then processLevelM db minStrength hop visited rest
    else do
      let present ← db.get_obs obsId
      let found := if present then [(obsId, hop)] else []
      let edges ← db.neighbors obsId minStrength
      let nbrs := (edges.map
          (fun e => if e.obs_a_id = obsId then e.obs_b_id else e.obs_a_id)).filter
        (fun b => decide (b ∉ obsId :: visited))
      let p ← processLevelM db minStrength hop (obsId :: visited) rest
      pure (p.1, nbrs ++ p.2.1, found ++ p.2.2)

def traverseLoopM (db : FallibleDB) (minStrength : ℚ) :
    Nat → List Nat → List Nat → Nat → Except String (List (Nat × Nat))
  | 0, _, _, _ => pure []
  | fuel + 1, visited, current, hop => do
    let p ← processLevelM db minStrength hop visited current
    if p.2.1 = [] then pure p.2.2
    else do
      let tail ← traverseLoopM db minStrength fuel p.1 p.2.1 (hop + 1)
      pure (p.2.2 ++ tail)

def traverse_graph_body (db : FallibleDB) (start_observation_id : Nat)
    (max_hops : Nat) (min_strength : ℚ) : Except String (List (Nat × Nat)) :=
  traverseLoopM db min_strength max_hops [] [start_observation_id] 0

def traverse_graph_op (db : FallibleDB) (start_observation_id : Nat)
    (max_hops : Nat) (min_strength : ℚ) : List (Nat × Nat) :=
  tryOrEmpty (traverse_graph_body db start_observation_id max_hops
    min_strength)

def cluster_observations_body (db : FallibleDB) (observation_ids : List Nat)
    (similarity_threshold : ℚ) : Except String (List (List Nat)) := do
  let obs_ids ← db.obs_in_ids observation_ids
  pure (clusterGo db.sim_of similarity_threshold obs_ids)

def cluster_observations_op (db : FallibleDB) (observation_ids : List Nat)
    (similarity_threshold : ℚ) : List (List Nat) :=
  tryOrEmpty (cluster_observations_body db observation_ids
    similarity_threshold)

/-- The fixed antonym keyword table of `find_contradictions`. -/
def contradiction_keywords : List (String × String) :=
  [("yes", "no"), ("true", "false"), ("approved", "denied"),
   ("confirmed", "refuted"), ("guilty", "innocent"), ("present", "absent")]

/-- One candidate pair: cross-presence of some antonym pair in the two
lowercased contexts (first match wins, as the source breaks out of the
keyword loop), annotated with `1 - similarity` of the second element. -/
def contraPair (o1 o2 : SObs × ℚ) :
    Option ((SObs × ℚ) × (SObs × ℚ) × ℚ) :=
  let t1 := o1.1.context.toLower
  let t2 := o2.1.context.toLower
  if contradiction_keywords.any (fun kw =>
      (t1.containsSubstr kw.1 && t2.containsSubstr kw.2)
      || (t1.containsSubstr kw.2 && t2.containsSubstr kw.1)) then
    some (o1, o2, 1 - o2.2)
  else none

def pairsScan : List (SObs × ℚ) → List ((SObs × ℚ) × (SObs × ℚ) × ℚ)
  | [] => []
  | o1 :: rest => rest.filterMap (contraPair o1) ++ pairsScan rest

/-- `find_contradictions` calls the (already failure-absorbing)
`semantic_search` with `k*2`, default threshold 0 and no filters, returns
`[]` when fewer than two observations come back, and otherwise scans all
pairs. -/
def find_contradictions_op (db : FallibleDB) (query : String) (k : Nat)
    (semantic_search_k : Nat) : List ((SObs × ℚ) × (SObs × ℚ) × ℚ) :=
  tryOrEmpty (do
    let observations := semantic_search_op db query (some (k * 2))
      semantic_search_k 0 (SearchFilters.mk none none)
    if observations.length < 2 then pure []
    else pure (pairsScan observations))

/-- A never-failing store built from a `GraphStore`; with it the fallible
traversal computes exactly `traverse_graph_intended` (consistency of the
fallible body, whose marshalling is modelled as pure, with the
intended-semantics embedding). -/
def dbOfGraph (g : GraphStore) : FallibleDB :=
  FallibleDB.mk (fun _ => Except.ok [])
    (fun _ _ _ => Except.ok [])
    (fun _ _ _ => Except.ok [])
    (fun _ _ => Except.ok [])
    (fun _ _ _ _ _ => Except.ok [])
    (fun i => Except.ok (decide (i ∈ g.obs_ids)))
    (fun i ms => Except.ok (g.edges.filter (fun e =>
      decide ((e.obs_a_id = i ∨ e.obs_b_id = i) ∧ ms ≤ e.strength))))
    (fun _ => Except.ok [])
    (fun _ _ => 0)

lemma processLevelM_dbOfGraph (g : GraphStore) (s : ℚ) (hop : Nat) :
    ∀ (c v : List Nat), processLevelM (dbOfGraph g) s hop v c
      = Except.ok (processLevelIntended g s hop v c) := by
  intro c
  induction c with
  | nil => intro v; rfl
  | cons obsId rest ih =>
    intro v
    rw [processLevelM, processLevelIntended]
    by_cases hv : obsId ∈ v
    · rw [if_pos hv, if_pos hv]
      exact ih v
    · rw [if_neg hv, if_neg hv, ih (obsId :: v)]
      by_cases hg : obsId ∈ g.obs_ids <;>
        simp [dbOfGraph, hg, neighborIds, exceptOk_bind]

lemma traverseLoopM_dbOfGraph (g : GraphStore) (s : ℚ) :
    ∀ (fuel : Nat) (v c : List Nat) (hop : Nat),
      traverseLoopM (dbOfGraph g) s fuel v c hop
        = Except.ok (traverseLoopIntended g s fuel v c hop) := by
  intro fuel
  induction fuel with
  | zero => intro v c hop; rfl
  | succ k ih =>
    intro v c hop
    rw [traverseLoopM, traverseLoopIntended, processLevelM_dbOfGraph]
    simp only [exceptOk_bind]
    by_cases hnil : (processLevelIntended g s hop v c).2.1 = []
    · simp [hnil]
      rfl
    · simp [hnil, ih, exceptOk_bind]

lemma traverse_graph_op_dbOfGraph (g : GraphStore) (start_observation_id : Nat)
    (max_hops : Nat) (min_strength : ℚ) :
    traverse_graph_op (dbOfGraph g) start_observation_id max_hops min_strength
      = traverse_graph_intended g start_observation_id max_hops min_strength := by
  rw [traverse_graph_op, traverse_graph_body, traverseLoopM_dbOfGraph]
  rfl

/-- C9: each of the six retrieval operations absorbs a failing
lookup/storage step and returns the empty list instead of propagating the
error.  For `find_contradictions`, whose only store access goes through the
internally absorbed `semantic_search`, a failing lookup yields fewer than
two observations and hence the empty list. -/
theorem retrieval_ops_absorb_failures (db : FallibleDB) (query : String)
    (k : Option Nat) (semantic_search_k : Nat) (min_similarity : ℚ)
    (filters : SearchFilters) (surface_form keyword : Option String)
    (observation_id : Option Nat) (max_distance : Option Nat) (limit : Nat)
    (start_date end_date : Option Int) (start_observation_id : Nat)
    (max_hops : Nat) (min_strength : ℚ) (observation_ids : List Nat)
    (similarity_threshold : ℚ) (kc : Nat) :
    (∀ e, semantic_search_body db query k semantic_search_k min_similarity
        filters = Except.error e →
      semantic_search_op db query k semantic_search_k min_similarity filters
        = []) ∧
    (∀ e, find_cooccurrences_body db surface_form observation_id max_distance
        limit = Except.error e →
      find_cooccurrences_op db surface_form observation_id max_distance limit
        = []) ∧
    (∀ e, temporal_query_body db surface_form keyword start_date end_date
        limit = Except.error e →
      temporal_query_op db surface_form keyword start_date end_date limit
        = []) ∧
    (∀ e, traverse_graph_body db start_observation_id max_hops min_strength
        = Except.error e →
      traverse_graph_op db start_observation_id max_hops min_strength = []) ∧
    (∀ e, cluster_observations_body db observation_ids similarity_threshold
        = Except.error e →
      cluster_observations_op db observation_ids similarity_threshold = []) ∧
    (∀ e, semantic_search_body db query (some (kc * 2)) semantic_search_k 0
        (SearchFilters.mk none none) = Except.error e →
      find_contradictions_op db query kc semantic_search_k = []) := by
  refine ⟨?_, ?_, ?_, ?_, ?_, ?_⟩
  · intro e he
    rw [semantic_search_op, he]
    rfl
  · intro e he
    rw [find_cooccurrences_op, he]
    rfl
  · intro e he
    rw [temporal_query_op, he]
    rfl
  · intro e he
    rw [traverse_graph_op, he]
    rfl
  · intro e he
    rw [cluster_observations_op, he]
    rfl
  · intro e he
    rw [find_contradictions_op]
    have hop : semantic_search_op db query (some (kc * 2)) semantic_search_k 0
        (SearchFilters.mk none none) = [] := by
      rw [semantic_search_op, he]
      rfl
    rw [hop]
    rfl

/-- A store whose every access raises. -/
def failingDB : FallibleDB :=
  FallibleDB.mk (fun _ => Except.error "db down")
    (fun _ _ _ => Except.error "db down")
    (fun _ _ _ => Except.error "db down")
    (fun _ _ => Except.error "db down")
    (fun _ _ _ _ _ => Except.error "db down")
    (fun _ => Except.error "db down")
    (fun _ _ => Except.error "db down")
    (fun _ => Except.error "db down")
    (fun _ _ => 0)

/-- Witness: against a store whose accesses all raise, each operation's body
fails and each operation returns the empty list. -/
theorem retrieval_ops_absorb_failures_witness :
    (semantic_search_body failingDB "q" none 20 0 (SearchFilters.mk none none)
        = Except.error "db down" ∧
      semantic_search_op failingDB "q" none 20 0 (SearchFilters.mk none none)
        = []) ∧
    (find_cooccurrences_body failingDB none (some 5) none 50
        = Except.error "db down" ∧
      find_cooccurrences_op failingDB none (some 5) none 50 = []) ∧
    (temporal_query_body failingDB none none none none 50
        = Except.error "db down" ∧
      temporal_query_op failingDB none none none none 50 = []) ∧
    (traverse_graph_body failingDB 1 2 0 = Except.error "db down" ∧
      traverse_graph_op failingDB 1 2 0 = []) ∧
    (cluster_observations_body failingDB [1, 2] 0 = Except.error "db down" ∧
      cluster_observations_op failingDB [1, 2] 0 = []) ∧
    (semantic_search_body failingDB "q" (some (3 * 2)) 20 0
        (SearchFilters.mk none none) = Except.error "db down" ∧
      find_contradictions_op failingDB "q" 3 20 = []) := by
  have hmain := retrieval_ops_absorb_failures failingDB "q" none 20 0
    (SearchFilters.mk none none) none none (some 5) none 50 none none 1 2 0
    [1, 2] 0 3
  refine ⟨⟨rfl, hmain.1 "db down" rfl⟩,
    ⟨rfl, hmain.2.1 "db down" rfl⟩,
    ⟨rfl, hmain.2.2.1 "db down" rfl⟩,
    ⟨rfl, hmain.2.2.2.1 "db down" rfl⟩,
    ⟨rfl, hmain.2.2.2.2.1 "db down" rfl⟩,
    ⟨rfl, hmain.2.2.2.2.2 "db down" rfl⟩⟩

end ECU
